import Mathlib

set_option maxRecDepth 4000

/-!
Verification development for the storage-engine core of an educational
DBMS: the slotted-page codec (`slotted_page.c`), the paged-file buffer
manager (`buf.c`), and the Strategy-3 bottom-up B+ tree bulk loader
(`test_objective3.c`).  Each C function is embedded shallowly as an
executable Lean definition; theorems below settle the spec claims.
-/

/-! ## Slotted Page Codec (slotted_page.c)

The page is viewed through the typed layout of `slotted_page.h`: a header
(page id, free-space offset and size, next/prev links), a slot directory
(list of (offset, length) entries; `num_slots` is the directory length),
and the raw record-byte region, modelled as a function from byte offset to
byte value.  C `short`/`int` header fields are modelled as `Int`; for the
page states reachable through the API all values stay far inside the
16-bit range, so no wraparound is modelled. -/

def SP_PAGE_SIZE : Int := 4096
def SP_HEADER_SIZE : Int := 32
def SP_SLOT_SIZE : Int := 4

inductive SPResult where
  | ok
  | spError
  | noSpace
  | invalidSlot
deriving DecidableEq, Repr

structure SlotEntry where
  off : Int
  len : Int
deriving DecidableEq, Repr

structure SPage where
  page_id : Int
  free_space_offset : Int
  free_space_size : Int
  next_page : Int
  prev_page : Int
  slots : List SlotEntry
  mem : Nat → Int
deriving Inhabited

/-- memcpy of `n` bytes from `src` at `srcOff` into `dst` at `dstOff`. -/
def memCopy (dst : Nat → Int) (dstOff : Int) (src : Nat → Int) (srcOff : Int)
    (n : Int) : Nat → Int :=
  fun i => if dstOff ≤ (i : Int) ∧ (i : Int) < dstOff + n then
    src ((i : Int) - dstOff + srcOff).toNat else dst i

/-- SP_InitPage: reset the header of a page buffer; the record-byte region
is left as-is (the C code touches only the header). -/
def SP_InitPage (mem : Nat → Int) : SPage :=
  { page_id := 0
    free_space_offset := SP_PAGE_SIZE
    free_space_size := SP_PAGE_SIZE - SP_HEADER_SIZE
    next_page := -1
    prev_page := -1
    slots := []
    mem := mem }

/-- A slot is reused by SP_InsertRecord when both offset and length are 0. -/
def isTombstone (s : SlotEntry) : Bool :=
  s.off == 0 && s.len == 0

/-- SP_InsertRecord: fail with SP_NO_SPACE unless
`free_space_size ≥ rec_len + SP_SLOT_SIZE`; reuse the lowest tombstoned
slot if one exists, else append a new slot; copy the record bytes just
below `free_space_offset`; decrement `free_space_size` by
`rec_len + SP_SLOT_SIZE` in both cases (the C code subtracts `need`
uniformly). Returns the chosen slot number. -/
def SP_InsertRecord (p : SPage) (record : Nat → Int) (rec_len : Int) :
    SPResult × SPage × Option Nat :=
  let need := rec_len + SP_SLOT_SIZE
  if p.free_space_size < need then
    (.noSpace, p, none)
  else
    let new_off := p.free_space_offset - rec_len
    let mem' := memCopy p.mem new_off record 0 rec_len
    let idx : Nat :=
      match p.slots.findIdx? isTombstone with
      | some i => i
      | none => p.slots.length
    let slots' :=
      match p.slots.findIdx? isTombstone with
      | some i => p.slots.set i ⟨new_off, rec_len⟩
      | none => p.slots ++ [⟨new_off, rec_len⟩]
    (.ok,
     { p with
        slots := slots'
        free_space_offset := new_off
        free_space_size := p.free_space_size - need
        mem := mem' },
     some idx)

/-- SP_DeleteRecord: bounds-check the slot number, then zero the slot entry
and return its recorded length to `free_space_size`.  No tombstone check is
performed; the record bytes are not touched. -/
def SP_DeleteRecord (p : SPage) (slot_num : Nat) : SPResult × SPage :=
  if slot_num ≥ p.slots.length then
    (.invalidSlot, p)
  else
    let s := p.slots.getD slot_num ⟨0, 0⟩
    (.ok,
     { p with
        slots := p.slots.set slot_num ⟨0, 0⟩
        free_space_size := p.free_space_size + s.len })

/-- SP_GetRecord: fail on an out-of-range slot or a slot whose offset is 0;
otherwise return the record bytes and length. -/
def SP_GetRecord (p : SPage) (slot_num : Nat) :
    SPResult × Option ((Nat → Int) × Int) :=
  if slot_num ≥ p.slots.length then
    (.invalidSlot, none)
  else
    let s := p.slots.getD slot_num ⟨0, 0⟩
    if s.off = 0 then
      (.invalidSlot, none)
    else
      (.ok, some (fun i => p.mem ((i : Int) + s.off).toNat, s.len))

/-- SP_GetFreeSpace returns the header's free-space counter. -/
def SP_GetFreeSpace (p : SPage) : Int :=
  p.free_space_size

/-- The live-record replay loop of SP_CompactPage: walk the backup's slot
directory in order, keep every slot with nonzero offset, pack its bytes
downward from the running offset, and emit the rebuilt directory.  Returns
(new slots, final offset, new byte region). -/
def compactLoop (backup : Nat → Int) :
    List SlotEntry → Int → (Nat → Int) → List SlotEntry × Int × (Nat → Int)
  | [], off, mem => ([], off, mem)
  | s :: rest, off, mem =>
    if s.off ≠ 0 then
      let off' := off - s.len
      let mem' := memCopy mem off' backup s.off s.len
      let (ss, offF, memF) := compactLoop backup rest off' mem'
      (⟨off', s.len⟩ :: ss, offF, memF)
    else
      compactLoop backup rest off mem

/-- SP_CompactPage: copy the page, re-init it, replay all live slots in
directory order packing records from the page end downward, then recompute
`num_slots`, `free_space_offset` and `free_space_size`. -/
def SP_CompactPage (p : SPage) : SPage :=
  let init := SP_InitPage p.mem
  let (slots', offF, memF) := compactLoop p.mem p.slots SP_PAGE_SIZE init.mem
  { init with
      slots := slots'
      free_space_offset := offF
      free_space_size := offF - SP_HEADER_SIZE - slots'.length * SP_SLOT_SIZE
      mem := memF }

/-- Sum of the lengths recorded in a slot directory. -/
def slotBytes (slots : List SlotEntry) : Int :=
  (slots.map (·.len)).sum

/-! ## Buffer Pool (buf.c)

The used buffer list is modelled as a `List BFrame` in recency order
(head = most recently used = `PFfirstbpage`, tail = `PFlastbpage`).  The
free list carries no observable identity, so it is modelled by its length.
The hash page directory always mirrors the used list (entries are inserted
exactly when a frame is linked into the used list with an identity and
deleted exactly when it leaves), so `PFhashFind` is modelled as a search of
the used list.  Disk writes are modelled as always succeeding and `malloc`
as never failing; page reads may fail (`readOk`).  `PF_MAX_BUFS` (defined
in `pftypes.h`, which is not among the sources) is carried in the state as
the pool capacity `maxBufs`; see `initBP`. -/

inductive PFResult where
  | ok
  | nomem
  | nobuf
  | pagefixed
  | pagenotinbuf
  | unixError
  | incompleteRead
  | pageunfixed
  | pageinbuf
deriving DecidableEq, Repr

structure BFrame where
  fd : Nat
  page : Nat
  fixed : Bool
  dirty : Bool
deriving DecidableEq, Repr

structure BPState where
  used : List BFrame
  freeCount : Nat
  numbpage : Nat
  maxBufs : Nat
  lruStrategy : Bool
  logicalReads : Nat
  logicalWrites : Nat
  physicalReads : Nat
  physicalWrites : Nat
  bufferHits : Nat
  bufferMisses : Nat
deriving DecidableEq, Repr

/-- Placeholder for the undefined fields of a freshly allocated frame; they
are always overwritten or discarded before the frame becomes observable. -/
def blankFrame : BFrame := ⟨0, 0, false, false⟩

/-- PFhashFind, as an index into the used list (the hash directory mirrors
the used list at every operation boundary). -/
def findFrame (used : List BFrame) (fd page : Nat) : Option Nat :=
  used.findIdx? (fun b => b.fd == fd && b.page == page)

/-- The victim search of PFbufInternalAlloc: under LRU scan the used list
from the tail towards the head, under MRU from the head towards the tail;
the first unfixed frame wins. -/
def victimIdx (s : BPState) : Option Nat :=
  if s.lruStrategy then
    match s.used.reverse.findIdx? (fun b => !b.fixed) with
    | some k => some (s.used.length - 1 - k)
    | none => none
  else
    s.used.findIdx? (fun b => !b.fixed)

/-- PFbufInternalAlloc: take a free frame if one exists, else malloc a new
frame while under `maxBufs`, else evict a victim chosen by the replacement
strategy.  The victim's page is written out only when dirty, but
`stat_physical_writes` is incremented unconditionally after the victim is
chosen (the increment sits outside the dirty test in the C code).  The
resulting blank frame is linked at the head of the used list. -/
def PFbufInternalAlloc (s : BPState) : PFResult × Option BPState :=
  if s.freeCount > 0 then
    (.ok, some { s with freeCount := s.freeCount - 1,
                        used := blankFrame :: s.used })
  else if s.numbpage < s.maxBufs then
    (.ok, some { s with numbpage := s.numbpage + 1,
                        used := blankFrame :: s.used })
  else
    match victimIdx s with
    | none => (.nobuf, none)
    | some k =>
      (.ok, some { s with physicalWrites := s.physicalWrites + 1,
                          used := blankFrame :: s.used.eraseIdx k })

/-- PFbufGet: count a logical read, then look the page up.  On a miss,
count it, allocate a frame, read the page (counting a physical read on
success; on read failure the frame goes back to the free list), install
the identity and fix the frame.  On a hit, count a buffer hit whether or
not the frame is fixed; if it is fixed, fail with PFE_PAGEFIXED, else fix
it and return. -/
def PFbufGet (s : BPState) (fd page : Nat) (readOk : Bool) :
    PFResult × BPState :=
  let s := { s with logicalReads := s.logicalReads + 1 }
  match findFrame s.used fd page with
  | none =>
    let s := { s with bufferMisses := s.bufferMisses + 1 }
    match PFbufInternalAlloc s with
    | (e, none) => (e, s)
    | (_, some s1) =>
      if readOk then
        let s2 := { s1 with physicalReads := s1.physicalReads + 1 }
        (.ok, { s2 with used := ⟨fd, page, true, false⟩ :: s2.used.tail })
      else
        (.incompleteRead, { s1 with used := s1.used.tail,
                                    freeCount := s1.freeCount + 1 })
  | some k =>
    let fr := s.used.getD k blankFrame
    if fr.fixed then
      (.pagefixed, { s with bufferHits := s.bufferHits + 1 })
    else
      (.ok, { s with bufferHits := s.bufferHits + 1,
                     used := s.used.set k { fr with fixed := true } })

/-- PFbufUnfix: count a logical write when the dirty parameter is set, then
require the page to be in the buffer and fixed; mark it dirty when asked,
unfix it, and move it to the head of the used list. -/
def PFbufUnfix (s : BPState) (fd page : Nat) (dirty : Bool) :
    PFResult × BPState :=
  let s := if dirty then { s with logicalWrites := s.logicalWrites + 1 }
           else s
  match findFrame s.used fd page with
  | none => (.pagenotinbuf, s)
  | some k =>
    let fr := s.used.getD k blankFrame
    if !fr.fixed then
      (.pageunfixed, s)
    else
      (.ok, { s with used := { fr with dirty := fr.dirty || dirty,
                                       fixed := false }
                             :: s.used.eraseIdx k })

/-- PFbufAlloc: fail when the page is already buffered, else allocate a
frame via PFbufInternalAlloc and install the identity, fixed and clean. -/
def PFbufAlloc (s : BPState) (fd page : Nat) : PFResult × BPState :=
  match findFrame s.used fd page with
  | some _ => (.pageinbuf, s)
  | none =>
    match PFbufInternalAlloc s with
    | (e, none) => (e, s)
    | (_, some s1) =>
      (.ok, { s1 with used := ⟨fd, page, true, false⟩ :: s1.used.tail })

/-- The scan loop of PFbufReleaseFile over the used list, head first.  A
frame of the file that is fixed aborts the scan with PFE_PAGEFIXED,
leaving it and everything after it in place.  Every earlier frame of the
file is written out when dirty (counting a physical write only then),
removed from the hash directory and the used list, and moved to the free
list.  Returns (result, remaining used list, frames freed, physical
writes performed). -/
def releaseScan (fd : Nat) : List BFrame → PFResult × List BFrame × Nat × Nat
  | [] => (.ok, [], 0, 0)
  | fr :: rest =>
    if fr.fd == fd then
      if fr.fixed then
        (.pagefixed, fr :: rest, 0, 0)
      else
        let (r, rem, fc, pw) := releaseScan fd rest
        (r, rem, fc + 1, pw + (if fr.dirty then 1 else 0))
    else
      let (r, rem, fc, pw) := releaseScan fd rest
      (r, fr :: rem, fc, pw)

/-- PFbufReleaseFile: release every page of the file from the buffer into
the free list, flushing dirty ones; abort with PFE_PAGEFIXED on the first
fixed page of the file encountered during the scan. -/
def PFbufReleaseFile (s : BPState) (fd : Nat) : PFResult × BPState :=
  let (r, rem, fc, pw) := releaseScan fd s.used
  (r, { s with used := rem,
               freeCount := s.freeCount + fc,
               physicalWrites := s.physicalWrites + pw })

/-- PFbufUsed: the page must be buffered and fixed; mark it dirty and move
it to the head of the used list. -/
def PFbufUsed (s : BPState) (fd page : Nat) : PFResult × BPState :=
  match findFrame s.used fd page with
  | none => (.pagenotinbuf, s)
  | some k =>
    let fr := s.used.getD k blankFrame
    if !fr.fixed then
      (.pageunfixed, s)
    else
      (.ok, { s with used := { fr with dirty := true } :: s.used.eraseIdx k })

/-- BUF_ResetStatistics zeroes all six counters. -/
def BUF_ResetStatistics (s : BPState) : BPState :=
  { s with logicalReads := 0, logicalWrites := 0, physicalReads := 0,
           physicalWrites := 0, bufferHits := 0, bufferMisses := 0 }

/-- One externally visible buffer-pool operation. -/
inductive BPOp where
  | get (fd page : Nat) (readOk : Bool)
  | unfix (fd page : Nat) (dirty : Bool)
  | alloc (fd page : Nat)
  | release (fd : Nat)
  | markUsed (fd page : Nat)
  | setStrategy (lru : Bool)
  | resetStats
deriving DecidableEq, Repr

/-- Step a single buffer-pool operation. -/
def BPstep (s : BPState) : BPOp → PFResult × BPState
  | .get fd page readOk => PFbufGet s fd page readOk
  | .unfix fd page dirty => PFbufUnfix s fd page dirty
  | .alloc fd page => PFbufAlloc s fd page
  | .release fd => PFbufReleaseFile s fd
  | .markUsed fd page => PFbufUsed s fd page
  | .setStrategy lru => (.ok, { s with lruStrategy := lru })
  | .resetStats => (.ok, BUF_ResetStatistics s)

/-- Modelled from the spec: `PF_Init` and the pool capacity `PF_MAX_BUFS`
live in `pf.c`/`pftypes.h`, which are not among the sources; per spec §4.3
the pool starts empty with a configurable capacity (`init_buffer_pool
pool_size policy`, original default 20) and all counters zero, default
strategy LRU (`buf.c` initialises `current_strategy = REPLACE_LRU`). -/
def initBP (maxBufs : Nat) : BPState :=
  { used := [], freeCount := 0, numbpage := 0, maxBufs := maxBufs,
    lruStrategy := true, logicalReads := 0, logicalWrites := 0,
    physicalReads := 0, physicalWrites := 0, bufferHits := 0,
    bufferMisses := 0 }

/-- Run a trace of buffer-pool operations, keeping the final state. -/
def runBP (s : BPState) (ops : List BPOp) : BPState :=
  ops.foldl (fun s op => (BPstep s op).2) s

/-! ## Strategy 3 bulk load (method3_bulk_load in test_objective3.c)

The loader never compares keys, it only copies the 20-byte `roll_no`
strings out of the presorted array, so keys are modelled as naturals (an
order-isomorphic stand-in for the strcmp order used by the qsort
comparator).  An entry is a (key, recId) pair.  `PF_AllocPage` lives in
`pf.c`, which is not among the sources; see `buildLeafList` for how page
numbers are assigned.  The layout constants come from the local
definitions at the top of `method3_bulk_load` (the file locally redefines
`PF_PAGE_SIZE` to 1020). -/

def BL_PAGE_SIZE : Nat := 1020
def ROLL_NO_LENGTH : Nat := 20
def LEAF_HEADER_SIZE : Nat := 1 + 4 + 4 * 2
def LEAF_ENTRY_SIZE : Nat := ROLL_NO_LENGTH + 4
def maxEntriesPerLeaf : Nat := (BL_PAGE_SIZE - LEAF_HEADER_SIZE) / LEAF_ENTRY_SIZE

/-- The C code computes `(int)(max_entries_per_leaf * 0.90)`; with
`max_entries_per_leaf = 41` the double product is exactly representable
and truncates to 36, which the integer arithmetic below reproduces. -/
def fillFactor : Nat := maxEntriesPerLeaf * 9 / 10

def INT_HEADER_SIZE : Nat := 1 + 3 * 2
def INT_ENTRY_SIZE : Nat := ROLL_NO_LENGTH + 4
def maxEntriesPerInternal : Nat :=
  (BL_PAGE_SIZE - INT_HEADER_SIZE - 4) / INT_ENTRY_SIZE

structure LeafPage where
  pageNum : Nat
  nextLeaf : Int
  attrLen : Nat
  numKeys : Nat
  maxKeys : Nat
  entries : List (Nat × Nat)
deriving DecidableEq, Repr, Inhabited

structure InternalPage where
  pageNum : Nat
  numKeys : Nat
  maxKeys : Nat
  attrLen : Nat
  firstChild : Nat
  seps : List (Nat × Nat)
deriving DecidableEq, Repr, Inhabited

/-- Worker for `chunkSucc`: `c` counts how many elements the current chunk
can still absorb, `acc` holds the current chunk in reverse. -/
def chunkGo (k : Nat) : List α → Nat → List α → List (List α)
  | [], _, acc => [acc.reverse]
  | a :: l, 0, acc => acc.reverse :: chunkGo k l k [a]
  | a :: l, c + 1, acc => chunkGo k l c (a :: acc)

/-- Split a list into consecutive chunks of size `k + 1` (last chunk may be
shorter); this is exactly how the leaf loop consumes
`min(fill_factor, remaining)` sorted entries per page and how the internal
loop consumes `min(max_entries_per_internal + 1, remaining)` children per
node.  `chunkSucc_cons_eq` gives the take/drop view. -/
def chunkSucc (k : Nat) : List α → List (List α)
  | [] => []
  | a :: l => chunkGo k l k [a]

theorem chunkGo_eq {α : Type} (k : Nat) :
    ∀ (l : List α) (c : Nat) (acc : List α),
      chunkGo k l c acc
        = (acc.reverse ++ l.take c) :: chunkSucc k (l.drop c) := by
  intro l
  induction l with
  | nil => intro c acc; simp [chunkGo, chunkSucc]
  | cons a l ih =>
    intro c acc
    cases c with
    | zero => simp [chunkGo, chunkSucc]
    | succ c => simp [chunkGo, ih l.length, ih c]

theorem chunkSucc_cons_eq {α : Type} (k : Nat) (a : α) (l : List α) :
    chunkSucc k (a :: l) = (a :: l.take k) :: chunkSucc k (l.drop k) := by
  show chunkGo k l k [a] = _
  rw [chunkGo_eq]
  rfl

/-- The leaf-construction loop: leaf `i` receives the `i`-th chunk of the
sorted entries, its key count is the chunk size, and its next-leaf field
is `pageNum + 1` except on the last leaf, where it is the terminator −1.
Modelled from the spec: `PF_AllocPage` (implemented in `pf.c`, not among
the sources) extends a fresh file by one page at a time, so consecutive
calls return consecutive page numbers starting at `p0`. -/
def buildLeafList (p0 : Nat) : List (List (Nat × Nat)) → List LeafPage
  | [] => []
  | c :: rest =>
    { pageNum := p0
      nextLeaf := if rest = [] then -1 else ((p0 + 1 : Nat) : Int)
      attrLen := ROLL_NO_LENGTH
      numKeys := c.length
      maxKeys := fillFactor
      entries := c } :: buildLeafList (p0 + 1) rest

/-- Build all leaf pages from the sorted entries. -/
def buildLeaves (p0 : Nat) (entries : List (Nat × Nat)) : List LeafPage :=
  buildLeafList p0 (chunkSucc (fillFactor - 1) entries)

/-- The separator-key computation of the internal-node loop: the key is
read from the sorted source array at index `child_idx * fill_factor`,
where `child_idx` is the position of the right child within the current
level's child array.  (The C guard `sep_entry_idx < num_records` leaves
the key uninitialised when out of range; the default entry here stands for
that case, which never arises because every level has at most as many
nodes as there are leaves.) -/
def sepKeyAt (entries : List (Nat × Nat)) (childIdx : Nat) : Nat :=
  (entries.getD (childIdx * fillFactor) (0, 0)).1

/-- The per-level internal-node loop: each node takes the next chunk of up
to `max_entries_per_internal + 1` children (paired with their positions in
the level's child array), stores the first as the left-edge child pointer,
and stores each remaining child behind the separator key
`sorted[child_idx * fill_factor]`. Page numbers continue sequentially. -/
def buildInternalList (entries : List (Nat × Nat)) (p0 : Nat) :
    List (List (Nat × Nat)) → List InternalPage
  | [] => []
  | [] :: rest => buildInternalList entries (p0 + 1) rest
  | ((_, c0) :: cs) :: rest =>
    { pageNum := p0
      numKeys := cs.length
      maxKeys := maxEntriesPerInternal
      attrLen := ROLL_NO_LENGTH
      firstChild := c0
      seps := cs.map (fun ic => (sepKeyAt entries ic.1, ic.2)) }
      :: buildInternalList entries (p0 + 1) rest

theorem buildInternalList_length (entries : List (Nat × Nat)) (p0 : Nat)
    (chunks : List (List (Nat × Nat))) :
    (buildInternalList entries p0 chunks).length ≤ chunks.length := by
  induction chunks generalizing p0 with
  | nil => simp [buildInternalList]
  | cons c rest ih =>
    cases c with
    | nil => simpa [buildInternalList] using
        Nat.le_succ_of_le (ih (p0 + 1))
    | cons a cs => simpa [buildInternalList] using ih (p0 + 1)

theorem chunkSucc_length_le {α : Type} (k : Nat) (hk : 1 ≤ k) :
    ∀ (l : List α), (chunkSucc k l).length ≤ l.length
  | [] => by simp [chunkSucc]
  | a :: l => by
    rw [chunkSucc_cons_eq]
    have ih := chunkSucc_length_le k hk (l.drop k)
    simp only [List.length_cons, List.length_drop] at ih ⊢
    omega
termination_by l => l.length
decreasing_by simp only [List.length_drop, List.length_cons]; omega

theorem chunkSucc_length_lt {α : Type} (k : Nat) (hk : 1 ≤ k) (l : List α)
    (hl : 2 ≤ l.length) : (chunkSucc k l).length < l.length := by
  match l, hl with
  | a :: b :: l', _ =>
    rw [chunkSucc_cons_eq]
    have h2 := chunkSucc_length_le k hk ((b :: l').drop k)
    simp only [List.length_drop, List.length_cons] at h2 ⊢
    omega

/-- The bottom-up level loop: while more than one child remains, chunk the
current level's children into internal nodes and recurse on the freshly
written pages.  The `while (num_children > 1)` loop is embedded with an
iteration bound `fuel`; by `chunkSucc_length_lt` every level is strictly
smaller than the one below it, so the `children.length` supplied by
`method3_bulk_load` always suffices and the bound is never the reason the
loop stops.  Returns the internal pages in allocation order together with
the page the C code reads as `parent_pages[0]` after the loop: `none`
models the NULL dereference that happens when the loop never ran (a single
leaf, or an empty input), otherwise it is the first parent of the last
level built, which is the root. -/
def buildLevels (entries : List (Nat × Nat)) :
    Nat → List Nat → Nat → List InternalPage × Option Nat
  | 0, _, _ => ([], none)
  | fuel + 1, children, p0 =>
    if children.length ≤ 1 then
      ([], none)
    else
      let chunks := chunkSucc maxEntriesPerInternal
        ((List.range children.length).zip children)
      let parents := buildInternalList entries p0 chunks
      let (rest, root) :=
        buildLevels entries fuel (parents.map (·.pageNum))
          (p0 + parents.length)
      (parents ++ rest,
       some (root.getD ((parents.headD default).pageNum)))

/-- method3_bulk_load, from the point where the entries are already
sorted: build the leaf level, then the internal levels bottom-up.  The
result is (leaf pages, internal pages, the page number read as the root).
The root page number is only kept in the local `root_page` variable of the
C code; nothing is written to the index file's header. -/
def method3_bulk_load (entries : List (Nat × Nat)) (p0 : Nat) :
    List LeafPage × List InternalPage × Option Nat :=
  let leaves := buildLeaves p0 entries
  let (internals, root) :=
    buildLevels entries leaves.length (leaves.map (·.pageNum))
      (p0 + leaves.length)
  (leaves, internals, root)

/-- Iterate the leaf chain: look up the current page, yield its entries,
and follow its next-leaf field; a negative page (the −1 terminator) or an
unknown page ends the walk. -/
def walkEntries (ls : List LeafPage) : Nat → Int → List (Nat × Nat)
  | 0, _ => []
  | fuel + 1, p =>
    match ls.find? (fun lf => (lf.pageNum : Int) == p) with
    | none => []
    | some lf => lf.entries ++ walkEntries ls fuel lf.nextLeaf

/-- All keys stored in the subtrees rooted at the pages on the worklist,
in depth-first left-to-right order (leaves looked up first, then internal
nodes; an internal node contributes its left-edge child followed by the
children behind its separators).  `fuel` bounds the number of steps. -/
def pageKeysWork (ls : List LeafPage) (is : List InternalPage) :
    Nat → List Nat → List Nat
  | 0, _ => []
  | _ + 1, [] => []
  | fuel + 1, p :: ps =>
    match ls.find? (fun lf => lf.pageNum == p) with
    | some lf => lf.entries.map (·.1) ++ pageKeysWork ls is fuel ps
    | none =>
      match is.find? (fun nd => nd.pageNum == p) with
      | some nd =>
        pageKeysWork ls is fuel (nd.firstChild :: nd.seps.map (·.2) ++ ps)
      | none => pageKeysWork ls is fuel ps

/-- All keys stored in the subtree rooted at page `p`. -/
def pageKeys (ls : List LeafPage) (is : List InternalPage)
    (fuel : Nat) (p : Nat) : List Nat :=
  pageKeysWork ls is fuel [p]

/-! ## Theorems: slotted page -/

@[simp] theorem slotBytes_nil : slotBytes [] = 0 := rfl

@[simp] theorem slotBytes_cons (s : SlotEntry) (l : List SlotEntry) :
    slotBytes (s :: l) = s.len + slotBytes l := by
  simp [slotBytes]

theorem compactLoop_off (backup : Nat → Int) (slots : List SlotEntry) :
    ∀ (off : Int) (mem : Nat → Int),
      (compactLoop backup slots off mem).2.1
        = off - slotBytes (compactLoop backup slots off mem).1 := by
  induction slots with
  | nil => intro off mem; simp [compactLoop]
  | cons s rest ih =>
    intro off mem
    by_cases hs : s.off = 0
    · simpa [compactLoop, hs] using ih off mem
    · have ihh := ih (off - s.len)
        (memCopy mem (off - s.len) backup s.off s.len)
      rcases hE : compactLoop backup rest (off - s.len)
          (memCopy mem (off - s.len) backup s.off s.len) with ⟨ss, offF, memF⟩
      rw [hE] at ihh
      simp only [compactLoop, hs, if_true, if_false, ite_not, hE] at ihh ⊢
      simp only [slotBytes_cons] at ihh ⊢
      omega

theorem compactLoop_lens (backup : Nat → Int) (slots : List SlotEntry) :
    ∀ (off : Int) (mem : Nat → Int),
      (compactLoop backup slots off mem).1.map (·.len)
        = (slots.filter (fun s => !(s.off == 0))).map (·.len) := by
  induction slots with
  | nil => intro off mem; simp [compactLoop]
  | cons s rest ih =>
    intro off mem
    by_cases hs : s.off = 0
    · simpa [compactLoop, hs, List.filter_cons] using ih off mem
    · have ihh := ih (off - s.len)
        (memCopy mem (off - s.len) backup s.off s.len)
      rcases hE : compactLoop backup rest (off - s.len)
          (memCopy mem (off - s.len) backup s.off s.len) with ⟨ss, offF, memF⟩
      rw [hE] at ihh
      simp only [compactLoop, hs, if_true, if_false, ite_not, hE,
        List.filter_cons] at ihh ⊢
      simp [hs, ihh]

/-- C7: For every slotted page, immediately after SP_CompactPage the
accounting identity `used_bytes + num_slots * SLOT_SIZE + HEADER_SIZE +
free_space_size = PAGE_SIZE` holds, where `used_bytes` is the total length
of the surviving records (exactly the lengths of the live slots of the
input page, in directory order) and `num_slots` is the post-compaction
slot count. -/
theorem SP_CompactPage_accounting (p : SPage) :
    slotBytes (SP_CompactPage p).slots
        + (SP_CompactPage p).slots.length * SP_SLOT_SIZE
        + SP_HEADER_SIZE + (SP_CompactPage p).free_space_size
      = SP_PAGE_SIZE
    ∧ (SP_CompactPage p).slots.map (·.len)
      = (p.slots.filter (fun s => !(s.off == 0))).map (·.len) := by
  have hoff := compactLoop_off p.mem p.slots SP_PAGE_SIZE (SP_InitPage p.mem).mem
  have hlen := compactLoop_lens p.mem p.slots SP_PAGE_SIZE (SP_InitPage p.mem).mem
  rcases hE : compactLoop p.mem p.slots SP_PAGE_SIZE (SP_InitPage p.mem).mem
    with ⟨ss, offF, memF⟩
  rw [hE] at hoff hlen
  simp only at hoff hlen
  constructor
  · simp only [SP_CompactPage, hE]
    simp only [SP_HEADER_SIZE, SP_PAGE_SIZE, SP_SLOT_SIZE] at hoff ⊢
    omega
  · simp only [SP_CompactPage, hE]
    exact hlen

theorem list_set_getD_self {α : Type} (l : List α) :
    ∀ (i : Nat) (d : α), i < l.length → l.set i (l.getD i d) = l := by
  induction l with
  | nil => intro i d h; simp at h
  | cons a l ih =>
    intro i d h
    cases i with
    | zero => simp [List.getD]
    | succ i =>
      simp only [List.getD_cons_succ, List.set_cons_succ, List.cons.injEq,
        true_and]
      exact ih i d (by simpa using Nat.lt_of_succ_lt_succ h)

theorem list_getD_set_self {α : Type} (l : List α) :
    ∀ (i : Nat) (x d : α), i < l.length → (l.set i x).getD i d = x := by
  induction l with
  | nil => intro i x d h; simp at h
  | cons a l ih =>
    intro i x d h
    cases i with
    | zero => simp [List.getD]
    | succ i =>
      simp only [List.set_cons_succ, List.getD_cons_succ]
      exact ih i x d (by simpa using Nat.lt_of_succ_lt_succ h)

/-- C10: deleting an in-range slot that is already a tombstone returns
SP_OK and leaves the whole page — header, slot directory and record
bytes — unchanged, and deleting the same in-range slot twice has exactly
the effect of deleting it once. -/
theorem SP_DeleteRecord_tombstone_idempotent (p : SPage) (i : Nat)
    (hin : i < p.slots.length) :
    (p.slots.getD i ⟨0, 0⟩ = ⟨0, 0⟩ → SP_DeleteRecord p i = (.ok, p))
    ∧ SP_DeleteRecord (SP_DeleteRecord p i).2 i = SP_DeleteRecord p i := by
  constructor
  · intro hts
    have hcond : ¬ (i ≥ p.slots.length) := Nat.not_le.mpr hin
    have hts' : p.slots[i]?.getD (⟨0, 0⟩ : SlotEntry) = (⟨0, 0⟩ : SlotEntry) := by
      rw [← List.getD_eq_getElem?_getD]; exact hts
    have hset : p.slots.set i (⟨0, 0⟩ : SlotEntry) = p.slots := by
      have h2 := list_set_getD_self p.slots i (⟨0, 0⟩ : SlotEntry) hin
      rwa [hts] at h2
    simp [SP_DeleteRecord, hcond, hts', hset]
  · have hlen1 : ¬ (i ≥ p.slots.length) := Nat.not_le.mpr hin
    have hlen2 : ¬ (i ≥ (p.slots.set i (⟨0, 0⟩ : SlotEntry)).length) := by
      simpa using hlen1
    have hget : (p.slots.set i (⟨0, 0⟩ : SlotEntry))[i]?.getD
        (⟨0, 0⟩ : SlotEntry) = (⟨0, 0⟩ : SlotEntry) := by
      rw [← List.getD_eq_getElem?_getD]
      exact list_getD_set_self p.slots i ⟨0, 0⟩ ⟨0, 0⟩ hin
    simp [SP_DeleteRecord, hlen1, hlen2, hget, List.set_set]

/-- Witness for SP_DeleteRecord_tombstone_idempotent at a concrete page:
one live record in slot 0 and a tombstone in slot 1. -/
def spWitnessPage : SPage :=
  { page_id := 0, free_space_offset := 4086, free_space_size := 4052,
    next_page := -1, prev_page := -1,
    slots := [⟨4086, 10⟩, ⟨0, 0⟩], mem := fun _ => 0 }

theorem SP_DeleteRecord_tombstone_idempotent_witness :
    (spWitnessPage.slots.getD 1 ⟨0, 0⟩ = ⟨0, 0⟩ →
      SP_DeleteRecord spWitnessPage 1 = (.ok, spWitnessPage))
    ∧ SP_DeleteRecord (SP_DeleteRecord spWitnessPage 1).2 1
      = SP_DeleteRecord spWitnessPage 1 :=
  SP_DeleteRecord_tombstone_idempotent spWitnessPage 1 (by decide)

/-- C4 (evaluation at the failing input): insert a 10-byte record into a
fresh page, delete it (slot 0 becomes a tombstone with free space 4060),
then insert another 10-byte record.  The second insert reuses slot 0 — no
new directory entry is appended — yet SP_InsertRecord still decrements
`free_space_size` by `rec_len + SLOT_SIZE = 14` (4060 → 4046) instead of
the `rec_len = 10` the spec requires on tombstone reuse. -/
theorem SP_InsertRecord_reuse_overcharge :
    ((SP_DeleteRecord
        (SP_InsertRecord (SP_InitPage fun _ => 0) (fun _ => 7) 10).2.1
        0).2.free_space_size = 4060)
    ∧ (SP_InsertRecord
        (SP_DeleteRecord
          (SP_InsertRecord (SP_InitPage fun _ => 0) (fun _ => 7) 10).2.1
          0).2 (fun _ => 7) 10).2.2 = some 0
    ∧ (SP_InsertRecord
        (SP_DeleteRecord
          (SP_InsertRecord (SP_InitPage fun _ => 0) (fun _ => 7) 10).2.1
          0).2 (fun _ => 7) 10).2.1.slots.length = 1
    ∧ (SP_InsertRecord
        (SP_DeleteRecord
          (SP_InsertRecord (SP_InitPage fun _ => 0) (fun _ => 7) 10).2.1
          0).2 (fun _ => 7) 10).2.1.free_space_size = 4046 := by
  refine ⟨?_, ?_, ?_, ?_⟩ <;> rfl

/-! ## Theorems: buffer pool -/

theorem PFbufInternalAlloc_stats (s s1 : BPState)
    (h : (PFbufInternalAlloc s).2 = some s1) :
    s1.logicalReads = s.logicalReads ∧ s1.bufferHits = s.bufferHits
      ∧ s1.bufferMisses = s.bufferMisses := by
  unfold PFbufInternalAlloc at h
  split_ifs at h
  · injection h with h
    subst h
    exact ⟨rfl, rfl, rfl⟩
  · injection h with h
    subst h
    exact ⟨rfl, rfl, rfl⟩
  · split at h
    · simp at h
    · injection h with h
      subst h
      exact ⟨rfl, rfl, rfl⟩

theorem BPstep_reads_inv (s : BPState) (op : BPOp)
    (h : s.logicalReads = s.bufferHits + s.bufferMisses) :
    (BPstep s op).2.logicalReads
      = (BPstep s op).2.bufferHits + (BPstep s op).2.bufferMisses := by
  cases op with
  | get fd page readOk =>
    simp only [BPstep, PFbufGet]
    split
    · rename_i heq
      split
      · rename_i e heq2
        dsimp only
        omega
      · rename_i e s1 heq2
        have hst := PFbufInternalAlloc_stats _ s1 (by rw [heq2])
        dsimp only at hst
        split <;> dsimp only <;> omega
    · rename_i k heq
      split <;> dsimp only <;> omega
  | unfix fd page dirty =>
    simp only [BPstep, PFbufUnfix]
    split <;> split <;> (try split) <;> (dsimp only; omega)
  | alloc fd page =>
    simp only [BPstep, PFbufAlloc]
    split
    · exact h
    · split
      · exact h
      · rename_i e s1 heq2
        have hst := PFbufInternalAlloc_stats _ s1 (by rw [heq2])
        dsimp only at hst ⊢
        omega
  | release fd =>
    simp only [BPstep, PFbufReleaseFile]
    exact h
  | markUsed fd page =>
    simp only [BPstep, PFbufUsed]
    split
    · exact h
    · split <;> dsimp only <;> omega
  | setStrategy lru => exact h
  | resetStats => simp [BPstep, BUF_ResetStatistics]

theorem runBP_reads_inv (ops : List BPOp) : ∀ (s : BPState),
    s.logicalReads = s.bufferHits + s.bufferMisses →
    (runBP s ops).logicalReads
      = (runBP s ops).bufferHits + (runBP s ops).bufferMisses := by
  induction ops with
  | nil => intro s h; simpa [runBP] using h
  | cons op rest ih =>
    intro s h
    simpa [runBP, List.foldl] using ih _ (BPstep_reads_inv s op h)

/-- C8: over every trace of buffer-pool operations starting from PF_Init,
including operations that return errors (page_fixed, no_buffer, read
failure), the identity `logical_reads = buffer_hits + buffer_misses` holds
after every operation: every PFbufGet counts one logical read and exactly
one of a hit or a miss in all of its branches, and no other operation
touches these counters. -/
theorem trace_logical_reads_identity (maxBufs : Nat) (ops : List BPOp) :
    (runBP (initBP maxBufs) ops).logicalReads
      = (runBP (initBP maxBufs) ops).bufferHits
        + (runBP (initBP maxBufs) ops).bufferMisses :=
  runBP_reads_inv ops (initBP maxBufs) rfl

/-- C6 (amended): for every get_page call on a page that is cached and
currently pinned, the call fails with page_fixed — and a buffer hit IS
recorded in this branch too: PFbufGet counts `stat_buffer_hits` on every
cached lookup, whether or not it fails with PFE_PAGEFIXED (the C comment
reads "Track buffer hit even though already fixed"). -/
theorem PFbufGet_fixed_fails_and_counts_hit (s : BPState) (fd page : Nat)
    (r : Bool) (k : Nat)
    (hf : findFrame s.used fd page = some k)
    (hfix : (s.used.getD k blankFrame).fixed = true) :
    PFbufGet s fd page r
      = (.pagefixed,
         { s with logicalReads := s.logicalReads + 1,
                  bufferHits := s.bufferHits + 1 }) := by
  simp only [PFbufGet]
  rw [show ({ s with logicalReads := s.logicalReads + 1 } : BPState).used
      = s.used from rfl, hf]
  dsimp only
  rw [show ({ s with logicalReads := s.logicalReads + 1 } : BPState).used
      = s.used from rfl, hfix]
  rfl

/-- Witness for PFbufGet_fixed_fails_and_counts_hit: page (1,2) is cached
and pinned after a single successful get. -/
theorem PFbufGet_fixed_fails_and_counts_hit_witness :
    PFbufGet (runBP (initBP 4) [.get 1 2 true]) 1 2 true
      = (.pagefixed,
         { runBP (initBP 4) [.get 1 2 true] with
             logicalReads := (runBP (initBP 4) [.get 1 2 true]).logicalReads + 1,
             bufferHits := (runBP (initBP 4) [.get 1 2 true]).bufferHits + 1 }) :=
  PFbufGet_fixed_fails_and_counts_hit (runBP (initBP 4) [.get 1 2 true])
    1 2 true 0 (by decide) (by decide)

/-- C6 counterexample to the claim as stated: after one successful get of
page (0,0) (a miss, so buffer_hits = 0), a second get of the same page
fails with page_fixed and buffer_hits becomes 1 — the failing page_fixed
call itself counted a buffer hit, contradicting the claim that no buffer
hit is counted when the call fails with page_fixed. -/
theorem PFbufGet_fixed_counts_hit_counterexample :
    (PFbufGet (runBP (initBP 4) [.get 0 0 true]) 0 0 true).1 = .pagefixed
    ∧ (runBP (initBP 4) [.get 0 0 true]).bufferHits = 0
    ∧ (PFbufGet (runBP (initBP 4) [.get 0 0 true]) 0 0 true).2.bufferHits
      = 1 :=
  ⟨rfl, rfl, rfl⟩

/-- C3 (evaluation at the failing input): a pool of one frame; get page
(0,0), unpin it clean, then get page (0,1).  The third call evicts the
clean victim — nothing was ever marked dirty (`logical_writes = 0`, and no
unpin or mark-used in the trace passed dirty = true), no page is written
back — yet `stat_physical_writes` is incremented to 1, because the C code
increments it outside the `tbpage->dirty` test in PFbufInternalAlloc.
This also violates `physical_writes ≤ count(marked-dirty-then-evicted)`,
whose right-hand side is 0 for this trace. -/
theorem clean_eviction_counts_physical_write :
    (runBP (initBP 1)
      [.get 0 0 true, .unfix 0 0 false, .get 0 1 true]).physicalWrites = 1
    ∧ (runBP (initBP 1)
      [.get 0 0 true, .unfix 0 0 false, .get 0 1 true]).logicalWrites = 0
    ∧ (runBP (initBP 1)
      [.get 0 0 true, .unfix 0 0 false, .get 0 1 true]).used
      = [⟨0, 1, true, false⟩] :=
  ⟨rfl, rfl, rfl⟩

theorem releaseScan_pagefixed_split (fd : Nat) (fr0 : BFrame) (hfd : fr0.fd = fd)
    (hfix : fr0.fixed = true) :
    ∀ (l1 l2 : List BFrame), (∀ fr ∈ l1, fr.fd = fd → fr.fixed = false) →
      releaseScan fd (l1 ++ fr0 :: l2)
        = (.pagefixed,
           l1.filter (fun fr => fr.fd != fd) ++ fr0 :: l2,
           (l1.filter (fun fr => fr.fd == fd)).length,
           (l1.filter (fun fr => fr.fd == fd && fr.dirty)).length) := by
  intro l1
  induction l1 with
  | nil =>
    intro l2 _
    simp [releaseScan, hfd, hfix]
  | cons fr rest ih =>
    intro l2 hpre
    have ihr := ih l2 (fun f hf => hpre f (List.mem_cons_of_mem fr hf))
    by_cases hefd : fr.fd = fd
    · have hfx : fr.fixed = false := hpre fr (List.mem_cons_self fr rest) hefd
      rw [List.cons_append]
      simp only [releaseScan, hefd, hfx, beq_self_eq_true, if_true,
        Bool.false_eq_true, if_false, ihr]
      simp [List.filter_cons, hefd]
      by_cases hd : fr.dirty <;> simp [hd]
    · rw [List.cons_append]
      simp only [releaseScan, ihr]
      have hne : (fr.fd == fd) = false := by
        simp [hefd]
      simp [List.filter_cons, hne, hefd]

/-- C9: when PFbufReleaseFile hits a pinned page of the file during its
head-to-tail scan of the used list, it returns page_fixed — but every
frame of that file that was visited earlier in the scan has already been
removed from the used list (hence from the hash directory, which mirrors
it) and moved to the free list, with a physical write performed for each
one that was dirty; frames of other files and everything from the pinned
frame onward are untouched.  A failed close is therefore not atomic. -/
theorem PFbufReleaseFile_nonatomic (s : BPState) (fd : Nat)
    (l1 l2 : List BFrame) (fr0 : BFrame)
    (hsplit : s.used = l1 ++ fr0 :: l2)
    (hpre : ∀ fr ∈ l1, fr.fd = fd → fr.fixed = false)
    (hfd : fr0.fd = fd) (hfix : fr0.fixed = true) :
    PFbufReleaseFile s fd
      = (.pagefixed,
         { s with
             used := l1.filter (fun fr => fr.fd != fd) ++ fr0 :: l2,
             freeCount := s.freeCount
               + (l1.filter (fun fr => fr.fd == fd)).length,
             physicalWrites := s.physicalWrites
               + (l1.filter (fun fr => fr.fd == fd && fr.dirty)).length }) := by
  simp only [PFbufReleaseFile, hsplit,
    releaseScan_pagefixed_split fd fr0 hfd hfix l1 l2 hpre]

/-- A used list for the PFbufReleaseFile witness: two unpinned frames of
file 1 (one dirty, one clean), a frame of file 2, then a pinned frame of
file 1, then one more unpinned frame of file 1 that the scan never
reaches. -/
def bpReleaseState : BPState :=
  { initBP 4 with
      numbpage := 5
      used := [⟨1, 0, false, true⟩, ⟨1, 3, false, false⟩,
               ⟨2, 5, false, true⟩, ⟨1, 1, true, false⟩,
               ⟨1, 2, false, true⟩] }

/-- Witness for PFbufReleaseFile_nonatomic at `bpReleaseState`. -/
theorem PFbufReleaseFile_nonatomic_witness :
    PFbufReleaseFile bpReleaseState 1
      = (.pagefixed,
         { bpReleaseState with
             used := ([⟨1, 0, false, true⟩, ⟨1, 3, false, false⟩,
                       ⟨2, 5, false, true⟩] : List BFrame).filter
                       (fun fr => fr.fd != 1)
                     ++ (⟨1, 1, true, false⟩ : BFrame) :: [⟨1, 2, false, true⟩],
             freeCount := bpReleaseState.freeCount
               + (([⟨1, 0, false, true⟩, ⟨1, 3, false, false⟩,
                    ⟨2, 5, false, true⟩] : List BFrame).filter
                    (fun fr => fr.fd == 1)).length,
             physicalWrites := bpReleaseState.physicalWrites
               + (([⟨1, 0, false, true⟩, ⟨1, 3, false, false⟩,
                    ⟨2, 5, false, true⟩] : List BFrame).filter
                    (fun fr => fr.fd == 1 && fr.dirty)).length }) :=
  PFbufReleaseFile_nonatomic bpReleaseState 1
    [⟨1, 0, false, true⟩, ⟨1, 3, false, false⟩, ⟨2, 5, false, true⟩]
    [⟨1, 2, false, true⟩] ⟨1, 1, true, false⟩
    rfl (by decide) rfl rfl

/-! ## Theorems: bulk load -/

theorem chunkSucc_flatten {α : Type} (k : Nat) :
    ∀ (l : List α), (chunkSucc k l).flatten = l
  | [] => by simp [chunkSucc]
  | a :: l => by
    rw [chunkSucc_cons_eq]
    have ih := chunkSucc_flatten k (l.drop k)
    simp only [List.flatten_cons, ih, List.cons_append,
      List.take_append_drop]
termination_by l => l.length
decreasing_by simp only [List.length_drop, List.length_cons]; omega

theorem chunkSucc_ne_nil {α : Type} (k : Nat) (a : α) (l : List α) :
    chunkSucc k (a :: l) ≠ [] := by
  rw [chunkSucc_cons_eq]
  simp

theorem buildLeafList_length (chunks : List (List (Nat × Nat))) :
    ∀ p0, (buildLeafList p0 chunks).length = chunks.length := by
  induction chunks with
  | nil => intro p0; rfl
  | cons c rest ih => intro p0; simp [buildLeafList, ih]

theorem find?_append_of_none {α : Type} (p : α → Bool) :
    ∀ (l1 l2 : List α), (∀ x ∈ l1, p x = false) →
      (l1 ++ l2).find? p = l2.find? p := by
  intro l1
  induction l1 with
  | nil => intro l2 _; rfl
  | cons a l ih =>
    intro l2 h
    have ha : p a = false := h a (List.mem_cons_self a l)
    rw [List.cons_append, List.find?_cons_of_neg _ (by simp [ha])]
    exact ih l2 (fun x hx => h x (List.mem_cons_of_mem a hx))

theorem walkEntries_neg (ls : List LeafPage) (fuel : Nat) (p : Int)
    (hp : p < 0) : walkEntries ls fuel p = [] := by
  cases fuel with
  | zero => rfl
  | succ f =>
    have hnone : ls.find? (fun lf => (lf.pageNum : Int) == p) = none := by
      apply List.find?_eq_none.mpr
      intro lf _
      simp only [beq_iff_eq]
      omega
    simp [walkEntries, hnone]

theorem walkEntries_buildLeafList :
    ∀ (chunks : List (List (Nat × Nat))) (pre : List LeafPage) (p0 fuel : Nat),
      (∀ lf ∈ pre, lf.pageNum < p0) → chunks.length ≤ fuel →
      walkEntries (pre ++ buildLeafList p0 chunks) fuel ((p0 : Nat) : Int)
        = chunks.flatten := by
  intro chunks
  induction chunks with
  | nil =>
    intro pre p0 fuel hpre _
    cases fuel with
    | zero => rfl
    | succ f =>
      have hnone : (pre ++ buildLeafList p0 []).find?
          (fun lf => (lf.pageNum : Int) == ((p0 : Nat) : Int)) = none := by
        apply List.find?_eq_none.mpr
        intro lf hlf
        simp only [buildLeafList, List.append_nil] at hlf
        have := hpre lf hlf
        simp only [beq_iff_eq]
        omega
      simp [walkEntries, hnone]
  | cons c rest ih =>
    intro pre p0 fuel hpre hf
    cases fuel with
    | zero => simp at hf
    | succ f =>
      have hpredf : ∀ lf ∈ pre,
          ((fun lf : LeafPage => (lf.pageNum : Int) == ((p0 : Nat) : Int)) lf)
            = false := by
        intro lf hlf
        have := hpre lf hlf
        simp only [beq_eq_false_iff_ne]
        omega
      simp only [buildLeafList, walkEntries]
      rw [find?_append_of_none _ pre _ hpredf,
        List.find?_cons_of_pos _ (by simp)]
      dsimp only
      cases rest with
      | nil =>
        rw [show (if ([] : List (List (Nat × Nat))) = [] then (-1 : Int)
            else ((p0 + 1 : Nat) : Int)) = (-1 : Int) by simp]
        rw [walkEntries_neg _ _ _ (by norm_num)]
        simp
      | cons r rs =>
        rw [show (if (r :: rs : List (List (Nat × Nat))) = [] then (-1 : Int)
            else ((p0 + 1 : Nat) : Int)) = ((p0 + 1 : Nat) : Int) by simp]
        rw [List.append_cons]
        rw [ih]
        · simp
        · intro lf hlf
          rcases List.mem_append.mp hlf with hl | hl
          · exact Nat.lt_succ_of_lt (hpre lf hl)
          · simp only [List.mem_singleton] at hl
            subst hl
            exact Nat.lt_succ_self p0
        · simpa using hf

theorem buildLeafList_getLast_next :
    ∀ (chunks : List (List (Nat × Nat))) (p0 : Nat), chunks ≠ [] →
      ((buildLeafList p0 chunks).getLast?).map (·.nextLeaf)
        = some (-1) := by
  intro chunks
  induction chunks with
  | nil => intro p0 h; exact absurd rfl h
  | cons c rest ih =>
    intro p0 _
    cases rest with
    | nil => rfl
    | cons r rs =>
      have hr := ih (p0 + 1) (by simp)
      simp only [buildLeafList] at hr ⊢
      rw [List.getLast?_cons_cons]
      exact hr

/-- C5: after Strategy 3 bulk load of any non-empty sorted input, following
the next-leaf links from the first leaf page visits the leaves left to
right and yields exactly the input entries — so the (key, RecordID) pairs
come out in ascending key order and their count equals the input
cardinality — and the last leaf's next-leaf field is the terminator −1. -/
theorem bulkload_leaf_chain (entries : List (Nat × Nat)) (p0 : Nat)
    (hne : entries ≠ [])
    (hsorted : List.Pairwise (fun a b : Nat × Nat => a.1 ≤ b.1) entries) :
    walkEntries (buildLeaves p0 entries) (buildLeaves p0 entries).length
        ((p0 : Nat) : Int) = entries
    ∧ (walkEntries (buildLeaves p0 entries) (buildLeaves p0 entries).length
        ((p0 : Nat) : Int)).length = entries.length
    ∧ List.Pairwise (fun a b : Nat × Nat => a.1 ≤ b.1)
        (walkEntries (buildLeaves p0 entries)
          (buildLeaves p0 entries).length ((p0 : Nat) : Int))
    ∧ ((buildLeaves p0 entries).getLast?).map (·.nextLeaf) = some (-1) := by
  have hwalk : walkEntries (buildLeaves p0 entries)
      (buildLeaves p0 entries).length ((p0 : Nat) : Int) = entries := by
    have h := walkEntries_buildLeafList (chunkSucc (fillFactor - 1) entries)
      [] p0 (buildLeaves p0 entries).length (by simp)
      (by simp [buildLeaves, buildLeafList_length])
    simpa [buildLeaves, chunkSucc_flatten] using h
  refine ⟨hwalk, by rw [hwalk], by rw [hwalk]; exact hsorted, ?_⟩
  rcases entries with _ | ⟨e, es⟩
  · exact absurd rfl hne
  · exact buildLeafList_getLast_next _ p0 (chunkSucc_ne_nil _ e es)

/-- Witness for bulkload_leaf_chain on a concrete sorted input of three
entries (a single leaf). -/
theorem bulkload_leaf_chain_witness :
    walkEntries (buildLeaves 1 [(1, 10), (2, 20), (3, 30)])
        (buildLeaves 1 [(1, 10), (2, 20), (3, 30)]).length ((1 : Nat) : Int)
        = [(1, 10), (2, 20), (3, 30)]
    ∧ (walkEntries (buildLeaves 1 [(1, 10), (2, 20), (3, 30)])
        (buildLeaves 1 [(1, 10), (2, 20), (3, 30)]).length
        ((1 : Nat) : Int)).length = ([(1, 10), (2, 20), (3, 30)]
          : List (Nat × Nat)).length
    ∧ List.Pairwise (fun a b : Nat × Nat => a.1 ≤ b.1)
        (walkEntries (buildLeaves 1 [(1, 10), (2, 20), (3, 30)])
          (buildLeaves 1 [(1, 10), (2, 20), (3, 30)]).length
          ((1 : Nat) : Int))
    ∧ ((buildLeaves 1 [(1, 10), (2, 20), (3, 30)]).getLast?).map
        (·.nextLeaf) = some (-1) :=
  bulkload_leaf_chain [(1, 10), (2, 20), (3, 30)] 1 (by decide)
    (by decide)

/-- Sorted input with 1549 entries, key of entry i equal to i.  With fill
factor 36 this yields 44 leaves, forcing two internal levels (internal
fanout 43), the smallest shape on which the separator-key arithmetic of
the bulk loader is exercised above the first internal level. -/
def demo1549 : List (Nat × Nat) := (List.range 1549).map (fun i => (i, i))

/-- C2 (evaluation at the failing input): five sorted entries fit in one
leaf (fill factor 36), so `while (num_children > 1)` never runs,
`parent_pages` is still NULL, and `root_page = parent_pages[0]`
dereferences NULL — the load does not complete and no root is recorded
(the `none` in the model stands for that NULL read).  Moreover, even on
multi-leaf inputs the loader only stores the root page number in the local
`root_page` variable and prints it; it never writes it to the index file's
header. -/
theorem bulkload_single_leaf_null_root :
    (method3_bulk_load ((List.range 5).map (fun i => (i, i))) 1).1.length = 1
    ∧ (method3_bulk_load ((List.range 5).map (fun i => (i, i))) 1).2.2
      = none := by
  constructor <;> decide

/-- C1 (evaluation at the failing input): bulk-loading `demo1549` produces
leaves on pages 1–44, first-level internal nodes on pages 45–46 and the
root on page 47.  The root stores the single separator key 36 (computed as
`sorted_entries[child_idx * fill_factor]` with `child_idx = 1` counting
internal children), but the smallest key actually reachable through its
right child (page 46) is 1548 — so the separator does not equal the
smallest key reachable through the right child, violating I-IX1. -/
theorem bulkload_separator_mismatch :
    (method3_bulk_load demo1549 1).2.2 = some 47
    ∧ ((method3_bulk_load demo1549 1).2.1.find?
        (fun nd => nd.pageNum == 47)).map (·.seps) = some [(36, 46)]
    ∧ pageKeys (method3_bulk_load demo1549 1).1
        (method3_bulk_load demo1549 1).2.1 100 46 = [1548] := by
  refine ⟨?_, ?_, ?_⟩ <;> decide
